import Mathlib

/-!
# Privacy-vault protocol core: shallow embedding and verification

Shallow embedding of the cryptographic protocol layer of the privacy-vault
repository:

* the client-side Merkle accumulator, commitment scheme and deposit-note
  codec (`frontend-lovable/src/lib/utils.ts`),
* the two circom constraint systems `Withdraw(10)` and `ProofOfInnocence(10)`
  (`programs/privacy-vault/circuits/vault/{withdraw,commitment}.circom`),
* the two Groth16 point-compression implementations
  (`utils.ts` and `programs/privacy-vault/ts-tests/utils/proof-helpers.ts`),
* the relayer withdrawal state machine (`relayer/server.js`).

Poseidon is an external primitive (circomlib / circomlibjs); every statement
here is parametric in the arity-1 and arity-2 hash maps, written `H1` and
`H2`.  JSON serialization is the JavaScript builtin; it enters the
deposit-note theorems as a parameter constrained by its round-trip property.
-/

namespace PrivacyVault

/-- BN254 scalar field modulus (the proof-system field used by
`toFieldElement` in `utils.ts` and by the circuits). -/
def SCALAR_FIELD_MODULUS : ℕ :=
  21888242871839275222246405745257275088548364400416034343698204186575808495617

/-- BN254 base field modulus (the curve-coordinate field used by
`compressG1Point` and `compressG2Point` in `utils.ts`). -/
def BASE_FIELD_MODULUS : ℕ :=
  21888242871839275222246405745257275088696311157297823662689037894645226208583

/-- The proof-system scalar field: all circuit signals and Merkle tree node
values live here. -/
abbrev F : Type := ZMod SCALAR_FIELD_MODULUS

/-- `MERKLE_TREE_DEPTH` from `utils.ts` (10 levels for the browser demo). -/
def MERKLE_TREE_DEPTH : ℕ := 10

/-- One level-combining pass of `buildMerkleTree`: the inner `for` loop
hashing adjacent pairs `(currentLevel[i], currentLevel[i+1])`.  Every level
the source ever combines has even length (a power of two), so the
odd-length case is never exercised. -/
def pairCombine (H2 : F → F → F) : List F → List F
  | a :: b :: rest => H2 a b :: pairCombine H2 rest
  | [a] => [H2 a 0]
  | [] => []

/-- The zero-padding of `buildMerkleTree`: `while (paddedLeaves.length < size)
paddedLeaves.push(BigInt(0))` with `size = 2 ** MERKLE_TREE_DEPTH`. -/
def padLeaves (commitments : List F) : List F :=
  commitments ++ List.replicate (2 ^ MERKLE_TREE_DEPTH - commitments.length) 0

/-- The level-building loop of `buildMerkleTree`: starting from a level,
record it and `n` successively combined levels. -/
def buildLevels (H2 : F → F → F) : ℕ → List F → List (List F)
  | 0, cur => [cur]
  | n + 1, cur => cur :: buildLevels H2 n (pairCombine H2 cur)

/-- `buildMerkleTree` from `utils.ts`: pad the commitments to `2 ^ 10`
leaves, then build the 11 levels (leaves first, root level last). -/
def buildMerkleTree (H2 : F → F → F) (commitments : List F) : List (List F) :=
  buildLevels H2 MERKLE_TREE_DEPTH (padLeaves commitments)

/-- `getMerkleRoot` from `utils.ts`: `tree[tree.length - 1][0]`. -/
def getMerkleRoot (tree : List (List F)) : F :=
  (tree.getD (tree.length - 1) []).getD 0 0

/-- The level loop of `getMerkleProof`: at each of `d` remaining levels
record the sibling (`tree[level][siblingIndex] || 0`) and the parity bit,
then move to `level + 1` with the index halved. -/
def merklePathFrom (tree : List (List F)) : ℕ → ℕ → ℕ → List F × List ℕ
  | _, _, 0 => ([], [])
  | level, idx, d + 1 =>
    let sibIdx := if idx % 2 = 1 then idx - 1 else idx + 1
    let e := (tree.getD level []).getD sibIdx 0
    let rest := merklePathFrom tree (level + 1) (idx / 2) d
    (e :: rest.1, (if idx % 2 = 1 then 1 else 0) :: rest.2)

/-- `getMerkleProof` from `utils.ts`: walk `MERKLE_TREE_DEPTH` levels from
the leaf index, returning `(pathElements, pathIndices)`. -/
def getMerkleProof (tree : List (List F)) (leafIndex : ℕ) : List F × List ℕ :=
  merklePathFrom tree 0 leafIndex MERKLE_TREE_DEPTH

/-- Manual path recombination, as the spec describes it: hash
`H2 current sibling` when the path bit is `0` and `H2 sibling current` when
it is `1`. -/
def recombinePath (H2 : F → F → F) : F → List F → List ℕ → F
  | cur, e :: es, b :: bs => recombinePath H2 (if b = 0 then H2 cur e else H2 e cur) es bs
  | cur, _, _ => cur

/-! ## Commitment scheme (`toFieldElement`, `computeCommitment`,
`computeNullifierHash` from `utils.ts`) -/
instance : Fact (1 < SCALAR_FIELD_MODULUS) := ⟨by norm_num [SCALAR_FIELD_MODULUS]⟩

/-- `toFieldElement` from `utils.ts`: `value % FIELD_MODULUS` — a silent
modular reduction, not a bounds check. -/
def toFieldElement (value : ℕ) : ℕ := value % SCALAR_FIELD_MODULUS

/-- `computeCommitment` from `utils.ts`: `poseidon([nullifier, secret])`
followed by `F.toObject`.  circomlibjs coerces each bigint argument into
the scalar field (reduction modulo the field order) before hashing; the
`ℕ → F` cast models that coercion, `.val` the canonical readback. -/
def computeCommitment (H2 : F → F → F) (nullifier secret : ℕ) : ℕ :=
  (H2 (nullifier : F) (secret : F)).val

/-- `computeNullifierHash` from `utils.ts`: `poseidon([nullifier])`. -/
def computeNullifierHash (H1 : F → F) (nullifier : ℕ) : ℕ :=
  (H1 (nullifier : F)).val

/-- `left[i] <== hashes[i] + pathIndices[i] * (pathElements[i] - hashes[i])`. -/
def selLeft (cur e s : F) : F := cur + s * (e - cur)

/-- `right[i] <== pathElements[i] + pathIndices[i] * (hashes[i] - pathElements[i])`. -/
def selRight (cur e s : F) : F := e + s * (cur - e)

/-- The root computed by the `MerkleProofWithdraw`/`MerkleProofInnocence`
hash chain, folded over the path arrays. -/
def merkleChainCircuit (H2 : F → F → F) : F → List F → List F → F
  | cur, e :: es, s :: ss =>
    merkleChainCircuit H2 (H2 (selLeft cur e s) (selRight cur e s)) es ss
  | cur, _, _ => cur

/-- The §4.2 combination rule with field-valued path bits: current on the
left for bit `0`, on the right for bit `1`. -/
def recombinePathF (H2 : F → F → F) : F → List F → List F → F
  | cur, e :: es, b :: bs =>
    recombinePathF H2 (if b = 0 then H2 cur e else H2 e cur) es bs
  | cur, _, _ => cur

/-- Satisfaction of the `Withdraw(10)` constraint system of
`withdraw.circom`: existence of internal signals (`hashes`, the `left` and
`right` arrays being determined by `selLeft`/`selRight`, and the three
square signals) meeting every constraint. -/
def withdrawSat (H1 : F → F) (H2 : F → F → F)
    (root nullifierHash recipient relayer fee : F)
    (nullifier secret : F) (pathElements pathIndices : List F) : Prop :=
  ∃ hashes : List F, hashes.length = MERKLE_TREE_DEPTH + 1
    ∧ hashes.getD 0 0 = H2 nullifier secret
    ∧ (∀ i < MERKLE_TREE_DEPTH,
        hashes.getD (i + 1) 0
          = H2 (selLeft (hashes.getD i 0) (pathElements.getD i 0) (pathIndices.getD i 0))
              (selRight (hashes.getD i 0) (pathElements.getD i 0) (pathIndices.getD i 0)))
    ∧ nullifierHash = H1 nullifier
    ∧ root = hashes.getD MERKLE_TREE_DEPTH 0
    ∧ (∃ recipientSquare feeSquare relayerSquare : F,
        recipientSquare = recipient * recipient
          ∧ feeSquare = fee * fee
          ∧ relayerSquare = relayer * relayer)

/-- Satisfaction of the `ProofOfInnocence(10)` constraint system of
`commitment.circom`: one `CommitmentHasher`, two independent
`MerkleProofInnocence` hash chains on the same commitment, and the two
binding square signals. -/
def innocenceSat (H1 : F → F) (H2 : F → F → F)
    (depositRoot associationSetRoot nullifierHash associationSetId timestamp : F)
    (nullifier secret : F)
    (depositPathElements depositPathIndices associationPathElements associationPathIndices : List F) :
    Prop :=
  ∃ dHashes aHashes : List F,
    dHashes.length = MERKLE_TREE_DEPTH + 1
    ∧ aHashes.length = MERKLE_TREE_DEPTH + 1
    ∧ dHashes.getD 0 0 = H2 nullifier secret
    ∧ aHashes.getD 0 0 = H2 nullifier secret
    ∧ (∀ i < MERKLE_TREE_DEPTH,
        dHashes.getD (i + 1) 0
          = H2 (selLeft (dHashes.getD i 0) (depositPathElements.getD i 0) (depositPathIndices.getD i 0))
              (selRight (dHashes.getD i 0) (depositPathElements.getD i 0) (depositPathIndices.getD i 0)))
    ∧ (∀ i < MERKLE_TREE_DEPTH,
        aHashes.getD (i + 1) 0
          = H2 (selLeft (aHashes.getD i 0) (associationPathElements.getD i 0) (associationPathIndices.getD i 0))
              (selRight (aHashes.getD i 0) (associationPathElements.getD i 0) (associationPathIndices.getD i 0)))
    ∧ nullifierHash = H1 nullifier
    ∧ depositRoot = dHashes.getD MERKLE_TREE_DEPTH 0
    ∧ associationSetRoot = aHashes.getD MERKLE_TREE_DEPTH 0
    ∧ (∃ associationSetIdSquare timestampSquare : F,
        associationSetIdSquare = associationSetId * associationSetId
          ∧ timestampSquare = timestamp * timestamp)

/-- Big-endian 32-byte encoding: the `for (let i = 31; i >= 0; i--)` loop of
`compressG1Point`/`compressG2Point` writing `temp & 0xff` and shifting. -/
def beBytes32 (x : ℕ) : List ℕ :=
  (List.range 32).map fun i => x >>> (8 * (31 - i)) &&& 255

/-- Little-endian 32-byte encoding: `leInt2Buff(_, 32)` from ffjavascript,
used by `parseProofToCompressed`. -/
def leBytes32 (x : ℕ) : List ℕ :=
  (List.range 32).map fun i => x >>> (8 * i) &&& 255

/-- `compressG1Point` from `utils.ts`: big-endian `x`, then
`bytes[0] |= 0x80` when `y > FIELD_MODULUS / 2`. -/
def compressG1Point (x y : ℕ) : List ℕ :=
  let bytes := beBytes32 x
  if BASE_FIELD_MODULUS / 2 < y then bytes.set 0 (bytes.getD 0 0 ||| 128) else bytes

/-- `compressG2Point` from `utils.ts`: big-endian `x2` then big-endian `x1`,
sign taken from `y2`, falling back to `y1` when `y2 == 0`. -/
def compressG2Point (x1 x2 y1 y2 : ℕ) : List ℕ :=
  let bytes := beBytes32 x2 ++ beBytes32 x1
  let yForSign := if y2 ≠ 0 then y2 else y1
  if BASE_FIELD_MODULUS / 2 < yForSign then bytes.set 0 (bytes.getD 0 0 ||| 128) else bytes

/-- `proofToSolanaFormat` from `utils.ts` on a proof
`pi_a = (ax, ay)`, `pi_b = ((bx1, bx2), (by1, by2))`, `pi_c = (cx, cy)`
(`bx1` is the real part `pi_b[0][0]`, `bx2` the imaginary part
`pi_b[0][1]`, and likewise for `y`): the `(a, b, c)` compressed triple. -/
def proofToSolanaFormat (ax ay bx1 bx2 by1 by2 cx cy : ℕ) :
    List ℕ × List ℕ × List ℕ :=
  (compressG1Point ax ay, compressG2Point bx1 bx2 by1 by2, compressG1Point cx cy)

/-- `FIELD_SIZE` imported by `proof-helpers.ts` from
`@lightprotocol/stateless.js`: the BN254 scalar field order (not the base
field the coordinates live in). -/
def FIELD_SIZE : ℕ := SCALAR_FIELD_MODULUS

/-- `yElementIsPositiveG1` from `proof-helpers.ts`:
`yElement.lte(FIELD_SIZE.sub(yElement))` over BN signed integers. -/
def yElementIsPositiveG1 (yElement : ℕ) : Bool :=
  decide ((yElement : ℤ) ≤ (FIELD_SIZE : ℤ) - (yElement : ℤ))

/-- `yElementIsPositiveG2` from `proof-helpers.ts`; `yElement1` is the
imaginary y-coordinate (first 32 bytes of the reversed flat encoding). -/
def yElementIsPositiveG2 (yElement1 yElement2 : ℕ) : Bool :=
  if yElement1 < FIELD_SIZE / 2 then true
  else if FIELD_SIZE / 2 < yElement1 then false
  else decide (yElement2 < FIELD_SIZE / 2)

/-- `addBitmaskToByte` from `proof-helpers.ts`. -/
def addBitmaskToByte (byte : ℕ) (yIsPositive : Bool) : ℕ :=
  if yIsPositive then byte else byte ||| 128

/-- `parseProofToCompressed` from `proof-helpers.ts`: `pi_a`/`pi_c` as
little-endian buffers reversed to big-endian; `pi_b` rows flattened and
reversed whole (yielding imaginary part first); the `a` sign bit is negated
(`proofAIsPositive = yElementIsPositiveG1(..) ? false : true`). -/
def parseProofToCompressed (ax ay bx1 bx2 by1 by2 cx cy : ℕ) :
    List ℕ × List ℕ × List ℕ :=
  let proofA := (leBytes32 ax).reverse
  let proofAIsPositive := if yElementIsPositiveG1 ay then false else true
  let a := proofA.set 0 (addBitmaskToByte (proofA.getD 0 0) proofAIsPositive)
  let proofB := (leBytes32 bx1 ++ leBytes32 bx2).reverse
  let proofBIsPositive := yElementIsPositiveG2 by2 by1
  let b := proofB.set 0 (addBitmaskToByte (proofB.getD 0 0) proofBIsPositive)
  let proofC := (leBytes32 cx).reverse
  let proofCIsPositive := yElementIsPositiveG1 cy
  let c := proofC.set 0 (addBitmaskToByte (proofC.getD 0 0) proofCIsPositive)
  (a, b, c)

/-! ## Relayer withdrawal state machine (`relayer/server.js`)

`POST /api/withdraw` checks the in-memory `usedNullifiers` set and enqueues
a job; the asynchronous `processJob` verifies the proof, sends the
transfer, and only then adds the nullifier hash to `usedNullifiers`.
A processing step is modelled atomically; the Boolean `ok` abstracts the
proof verification, balance check and transfer all succeeding.  Nullifier
hashes and job ids are abstract naturals. -/
inductive JobStatus where
  | pending
  | completed
  | failed
deriving DecidableEq

structure Job where
  id : ℕ
  nullifierHash : ℕ
  status : JobStatus
deriving DecidableEq

structure RelayerState where
  usedNullifiers : List ℕ
  jobs : List Job
deriving DecidableEq

/-- The `/api/withdraw` handler: reject with the duplicate-spend error when
`usedNullifiers.has(nullifierHash)`, otherwise enqueue a pending job.
The Boolean records whether the request was accepted. -/
def submitWithdraw (st : RelayerState) (nh jobId : ℕ) : RelayerState × Bool :=
  if nh ∈ st.usedNullifiers then (st, false)
  else ({ usedNullifiers := st.usedNullifiers,
          jobs := st.jobs ++ [⟨jobId, nh, JobStatus.pending⟩] }, true)

/-- `processJob`: on success mark the job completed and add its nullifier
hash to `usedNullifiers` (a JS `Set`, hence only when absent); on failure
mark it failed.  The set is never re-checked here. -/
def processJob (st : RelayerState) (jobId : ℕ) (ok : Bool) : RelayerState :=
  match st.jobs.find? (fun j => j.id == jobId && j.status == JobStatus.pending) with
  | none => st
  | some j =>
    if ok then
      { usedNullifiers :=
          if j.nullifierHash ∈ st.usedNullifiers then st.usedNullifiers
          else st.usedNullifiers ++ [j.nullifierHash],
        jobs := st.jobs.map fun j2 =>
          if j2.id = jobId then { j2 with status := JobStatus.completed } else j2 }
    else
      { usedNullifiers := st.usedNullifiers,
        jobs := st.jobs.map fun j2 =>
          if j2.id = jobId then { j2 with status := JobStatus.failed } else j2 }

inductive RelayerStep where
  | submit (nullifierHash jobId : ℕ)
  | process (jobId : ℕ) (ok : Bool)

def runRelayer : RelayerState → List RelayerStep → RelayerState
  | st, [] => st
  | st, RelayerStep.submit nh jobId :: rest => runRelayer (submitWithdraw st nh jobId).1 rest
  | st, RelayerStep.process jobId ok :: rest => runRelayer (processJob st jobId ok) rest

def initialRelayerState : RelayerState := ⟨[], []⟩

/-- A parsed JavaScript JSON value. -/
inductive JsValue where
  | str : String → JsValue
  | num : Int → JsValue
  | bool : Bool → JsValue
  | null : JsValue
  | obj : List (String × JsValue) → JsValue
  | arr : List JsValue → JsValue

/-- The `DepositNote` interface of `utils.ts`. -/
structure DepositNote where
  nullifier : String
  secret : String
  commitment : String
  nullifierHash : String
  amount : Int
  timestamp : Int

/-- JavaScript truthiness of a parsed JSON value (`undefined` is handled by
`fieldTruthy`; property access on `null` throws, which the caller's
`catch` maps to the same `null` result as falsiness). -/
def jsTruthy : JsValue → Bool
  | JsValue.str s => s ≠ ""
  | JsValue.num n => n ≠ 0
  | JsValue.bool b => b
  | JsValue.null => false
  | JsValue.obj _ => true
  | JsValue.arr _ => true

/-- Property lookup on a parsed value: `none` models `undefined`. -/
def jsField : JsValue → String → Option JsValue
  | JsValue.obj fields, k => fields.lookup k
  | _, _ => none

/-- Truthiness of `parsed.k` (with `undefined` falsy). -/
def fieldTruthy (v : JsValue) (k : String) : Bool :=
  match jsField v k with
  | some fv => jsTruthy fv
  | none => false

/-- The JSON object value of a `DepositNote`, field order as produced by
`generateDepositSecrets`. -/
def noteToJs (note : DepositNote) : JsValue :=
  JsValue.obj
    [("nullifier", JsValue.str note.nullifier),
     ("secret", JsValue.str note.secret),
     ("commitment", JsValue.str note.commitment),
     ("nullifierHash", JsValue.str note.nullifierHash),
     ("amount", JsValue.num note.amount),
     ("timestamp", JsValue.num note.timestamp)]

/-- `serializeDepositNote` from `utils.ts`: `JSON.stringify(note, null, 2)`
with the builtin passed in. -/
def serializeDepositNote (stringify : JsValue → String) (note : DepositNote) : String :=
  stringify (noteToJs note)

/-- `parseDepositNote` from `utils.ts`: parse, return the parsed object
when `parsed.nullifier && parsed.secret && parsed.commitment` is truthy,
`null` otherwise, and `null` when parsing throws. -/
def parseDepositNote (jsonParse : String → Option JsValue) (noteString : String) :
    Option JsValue :=
  match jsonParse noteString with
  | none => none
  | some parsed =>
    if fieldTruthy parsed "nullifier" && fieldTruthy parsed "secret"
        && fieldTruthy parsed "commitment" then
      some parsed
    else
      none

/-! ## Theorems -/

/-! ### Merkle lemmas -/
theorem pairCombine_length (H2 : F → F → F) :
    ∀ l : List F, (pairCombine H2 l).length = (l.length + 1) / 2
  | [] => rfl
  | [_] => by simp [pairCombine]
  | _ :: _ :: rest => by
    simp only [pairCombine, List.length_cons, pairCombine_length H2 rest]
    omega

theorem pairCombine_getD (H2 : F → F → F) :
    ∀ (l : List F) (i : ℕ), 2 * i + 1 < l.length →
      (pairCombine H2 l).getD i 0 = H2 (l.getD (2 * i) 0) (l.getD (2 * i + 1) 0)
  | [], i, h => by simp at h
  | [_], i, h => by simp at h
  | a :: b :: rest, 0, _ => rfl
  | a :: b :: rest, i + 1, h => by
    have hr : 2 * i + 1 < rest.length := by
      simp only [List.length_cons] at h; omega
    have := pairCombine_getD H2 rest i hr
    simpa [pairCombine, Nat.mul_succ, List.getD_cons_succ] using this

theorem buildLevels_length (H2 : F → F → F) :
    ∀ (n : ℕ) (l : List F), (buildLevels H2 n l).length = n + 1
  | 0, _ => rfl
  | n + 1, l => by
    simp [buildLevels, buildLevels_length H2 n]

theorem buildLevels_getD (H2 : F → F → F) :
    ∀ (n k : ℕ) (l : List F), k ≤ n →
      (buildLevels H2 n l).getD k [] = (pairCombine H2)^[k] l
  | 0, 0, l, _ => rfl
  | 0, k + 1, l, h => by omega
  | n + 1, 0, l, _ => rfl
  | n + 1, k + 1, l, h => by
    have := buildLevels_getD H2 n k (pairCombine H2 l) (by omega)
    simpa [buildLevels, Function.iterate_succ_apply] using this

theorem merklePathFrom_cons (tree : List (List F)) (t : List F) :
    ∀ (d level idx : ℕ),
      merklePathFrom (t :: tree) (level + 1) idx d = merklePathFrom tree level idx d
  | 0, _, _ => rfl
  | d + 1, level, idx => by
    simp only [merklePathFrom, List.getD_cons_succ]
    rw [merklePathFrom_cons tree t d (level + 1) (idx / 2)]

/-- Iterated combining preserves the power-of-two level sizes. -/
theorem iterate_pairCombine_length (H2 : F → F → F) :
    ∀ (k n : ℕ) (l : List F), k ≤ n → l.length = 2 ^ n →
      ((pairCombine H2)^[k] l).length = 2 ^ (n - k)
  | 0, n, l, _, hl => by simpa using hl
  | k + 1, n, l, hk, hl => by
    rcases Nat.exists_eq_add_of_le (Nat.one_le_iff_ne_zero.mpr (by omega) : 1 ≤ n) with ⟨m, hm⟩
    have hlen : (pairCombine H2 l).length = 2 ^ m := by
      rw [pairCombine_length, hl, hm]
      have : 2 ^ (1 + m) = 2 * 2 ^ m := by rw [pow_add, pow_one]
      omega
    have := iterate_pairCombine_length H2 k m (pairCombine H2 l) (by omega) hlen
    rw [Function.iterate_succ_apply, this, hm]
    congr 1
    omega

/-- Key invariant: recombining a leaf with the authentication path produced
by `merklePathFrom` over the built levels reproduces the apex node. -/
theorem recombinePath_merklePathFrom (H2 : F → F → F) :
    ∀ (d : ℕ) (l : List F) (idx : ℕ), idx < l.length → l.length = 2 ^ d →
      recombinePath H2 (l.getD idx 0)
          (merklePathFrom (buildLevels H2 d l) 0 idx d).1
          (merklePathFrom (buildLevels H2 d l) 0 idx d).2
        = ((pairCombine H2)^[d] l).getD 0 0
  | 0, l, idx, hidx, hl => by
    have : idx = 0 := by rw [hl] at hidx; omega
    subst this
    rfl
  | d + 1, l, idx, hidx, hl => by
    have hhalf : (pairCombine H2 l).length = 2 ^ d := by
      rw [pairCombine_length, hl]
      have : 2 ^ (d + 1) = 2 * 2 ^ d := by rw [pow_succ]; ring
      omega
    have hidx2 : idx / 2 < (pairCombine H2 l).length := by
      rw [hhalf]
      rw [hl] at hidx
      have : 2 ^ (d + 1) = 2 * 2 ^ d := by rw [pow_succ]; ring
      omega
    have ih := recombinePath_merklePathFrom H2 d (pairCombine H2 l) (idx / 2) hidx2 hhalf
    have hshift :
        merklePathFrom (l :: buildLevels H2 d (pairCombine H2 l)) 1 (idx / 2) d
          = merklePathFrom (buildLevels H2 d (pairCombine H2 l)) 0 (idx / 2) d :=
      merklePathFrom_cons _ l d 0 (idx / 2)
    -- step value fed to the recursive recombination
    have hstep : ∀ sib bit, sib = (if idx % 2 = 1 then idx - 1 else idx + 1) →
        bit = (if idx % 2 = 1 then (1 : ℕ) else 0) →
        (if bit = 0 then H2 (l.getD idx 0) (l.getD sib 0) else H2 (l.getD sib 0) (l.getD idx 0))
          = (pairCombine H2 l).getD (idx / 2) 0 := by
      intro sib bit hsib hbit
      rcases Nat.even_or_odd idx with he | ho
      · have hmod : idx % 2 = 0 := Nat.even_iff.mp he
        have h2 : 2 * (idx / 2) = idx := by omega
        have hb : 2 * (idx / 2) + 1 < l.length := by rw [hl] at hidx ⊢; omega
        rw [pairCombine_getD H2 l (idx / 2) hb, h2]
        simp [hsib, hbit, hmod]
      · have hmod : idx % 2 = 1 := Nat.odd_iff.mp ho
        have h2 : 2 * (idx / 2) = idx - 1 := by omega
        have h3 : 2 * (idx / 2) + 1 = idx := by omega
        have hb : 2 * (idx / 2) + 1 < l.length := by omega
        rw [pairCombine_getD H2 l (idx / 2) hb, h2]
        have h4 : idx - 1 + 1 = idx := by omega
        rw [h4]
        simp [hsib, hbit, hmod]
    simp only [buildLevels, merklePathFrom, List.getD_cons_zero]
    rw [hshift]
    simp only [recombinePath]
    rw [hstep _ _ rfl rfl, Function.iterate_succ_apply]
    exact ih

/-- C2: for every leaf list of size at most `2 ^ 10` and every valid index
into it, recombining the leaf with the authentication path returned by
`getMerkleProof (buildMerkleTree leaves) i` — hashing `H2 current sibling`
on path bit `0` and `H2 sibling current` on path bit `1` — reproduces the
root returned by `getMerkleRoot` on the same tree. -/
theorem merkle_proof_recombines_root (H2 : F → F → F) (leaves : List F) (i : ℕ)
    (hlen : leaves.length ≤ 2 ^ MERKLE_TREE_DEPTH) (hi : i < leaves.length) :
    recombinePath H2 (leaves.getD i 0)
        (getMerkleProof (buildMerkleTree H2 leaves) i).1
        (getMerkleProof (buildMerkleTree H2 leaves) i).2
      = getMerkleRoot (buildMerkleTree H2 leaves) := by
  have hpadlen : (padLeaves leaves).length = 2 ^ MERKLE_TREE_DEPTH := by
    simp only [padLeaves, List.length_append, List.length_replicate]
    omega
  have hi' : i < (padLeaves leaves).length := by
    rw [hpadlen]; omega
  have hleaf : (padLeaves leaves).getD i 0 = leaves.getD i 0 :=
    List.getD_append leaves _ 0 i hi
  have hroot : getMerkleRoot (buildMerkleTree H2 leaves)
      = ((pairCombine H2)^[MERKLE_TREE_DEPTH] (padLeaves leaves)).getD 0 0 := by
    unfold getMerkleRoot buildMerkleTree
    rw [buildLevels_length, Nat.add_sub_cancel, buildLevels_getD H2 _ _ _ le_rfl]
  rw [hroot, ← hleaf]
  exact recombinePath_merklePathFrom H2 MERKLE_TREE_DEPTH (padLeaves leaves) i hi' hpadlen

/-- Witness for `merkle_proof_recombines_root` at a one-leaf list and a
concrete hash function. -/
theorem merkle_proof_recombines_root_witness :
    recombinePath (fun a b => a + b + 1) ([(5 : F)].getD 0 0)
        (getMerkleProof (buildMerkleTree (fun a b => a + b + 1) [(5 : F)]) 0).1
        (getMerkleProof (buildMerkleTree (fun a b => a + b + 1) [(5 : F)]) 0).2
      = getMerkleRoot (buildMerkleTree (fun a b => a + b + 1) [(5 : F)]) :=
  merkle_proof_recombines_root (fun a b => a + b + 1) [(5 : F)] 0
    (by norm_num [MERKLE_TREE_DEPTH]) (by norm_num)

/-- C9: `buildMerkleTree` pads the leaf list with the sentinel `0` up to
`2 ^ 10` leaves and then repeatedly combines adjacent pairs, so the top
level of the returned tree is a single node, which `getMerkleRoot`
returns. -/
theorem buildMerkleTree_pads_and_reduces_to_single_root
    (H2 : F → F → F) (leaves : List F)
    (hlen : leaves.length ≤ 2 ^ MERKLE_TREE_DEPTH) :
    (buildMerkleTree H2 leaves).getD 0 []
        = leaves ++ List.replicate (2 ^ MERKLE_TREE_DEPTH - leaves.length) 0
      ∧ (buildMerkleTree H2 leaves).length = MERKLE_TREE_DEPTH + 1
      ∧ (∀ k < MERKLE_TREE_DEPTH,
          (buildMerkleTree H2 leaves).getD (k + 1) []
            = pairCombine H2 ((buildMerkleTree H2 leaves).getD k []))
      ∧ ((buildMerkleTree H2 leaves).getD MERKLE_TREE_DEPTH []).length = 1
      ∧ getMerkleRoot (buildMerkleTree H2 leaves)
          = ((buildMerkleTree H2 leaves).getD MERKLE_TREE_DEPTH []).getD 0 0 := by
  have hpadlen : (padLeaves leaves).length = 2 ^ MERKLE_TREE_DEPTH := by
    simp only [padLeaves, List.length_append, List.length_replicate]
    omega
  refine ⟨?_, ?_, ?_, ?_, ?_⟩
  · rw [buildMerkleTree, buildLevels_getD H2 _ _ _ (Nat.zero_le _)]
    rfl
  · rw [buildMerkleTree, buildLevels_length]
  · intro k hk
    rw [buildMerkleTree, buildLevels_getD H2 _ _ _ hk,
      buildLevels_getD H2 _ _ _ (Nat.le_of_lt hk), Function.iterate_succ_apply']
  · rw [buildMerkleTree, buildLevels_getD H2 _ _ _ le_rfl]
    rw [iterate_pairCombine_length H2 _ _ _ le_rfl hpadlen]
    simp
  · rw [getMerkleRoot, buildMerkleTree, buildLevels_length, Nat.add_sub_cancel]

/-- Witness for `buildMerkleTree_pads_and_reduces_to_single_root` at a
two-leaf list. -/
theorem buildMerkleTree_pads_and_reduces_to_single_root_witness :
    (buildMerkleTree (fun a b => a * b) [(1 : F), 2]).getD 0 []
        = [(1 : F), 2] ++ List.replicate (2 ^ MERKLE_TREE_DEPTH - [(1 : F), 2].length) 0
      ∧ (buildMerkleTree (fun a b => a * b) [(1 : F), 2]).length = MERKLE_TREE_DEPTH + 1
      ∧ (∀ k < MERKLE_TREE_DEPTH,
          (buildMerkleTree (fun a b => a * b) [(1 : F), 2]).getD (k + 1) []
            = pairCombine (fun a b => a * b)
                ((buildMerkleTree (fun a b => a * b) [(1 : F), 2]).getD k []))
      ∧ ((buildMerkleTree (fun a b => a * b) [(1 : F), 2]).getD MERKLE_TREE_DEPTH []).length = 1
      ∧ getMerkleRoot (buildMerkleTree (fun a b => a * b) [(1 : F), 2])
          = ((buildMerkleTree (fun a b => a * b) [(1 : F), 2]).getD MERKLE_TREE_DEPTH []).getD 0 0 :=
  buildMerkleTree_pads_and_reduces_to_single_root (fun a b => a * b) [(1 : F), 2]
    (by norm_num [MERKLE_TREE_DEPTH])

/-- C8 counterexample: at the out-of-range input `SCALAR_FIELD_MODULUS`
(the smallest value `≥` the modulus) neither operation rejects; each hashes
the silently reduced value, and `toFieldElement` reduces it to `0`. -/
theorem field_inputs_not_rejected_counterexample :
    computeCommitment (fun a b => a + b) SCALAR_FIELD_MODULUS 3
        = computeCommitment (fun a b => a + b) 0 3
      ∧ computeNullifierHash (fun a => a + 1) SCALAR_FIELD_MODULUS
          = computeNullifierHash (fun a => a + 1) 0
      ∧ toFieldElement SCALAR_FIELD_MODULUS = 0 := by
  refine ⟨?_, ?_, ?_⟩
  · simp [computeCommitment, ZMod.natCast_self]
  · simp [computeNullifierHash, ZMod.natCast_self]
  · simp [toFieldElement]

/-- C8 amended: an input `≥` the scalar field modulus is not rejected:
`computeCommitment` and `computeNullifierHash` hash it reduced modulo the
field order, and `toFieldElement` likewise silently reduces. -/
theorem field_inputs_silently_reduced (H1 : F → F) (H2 : F → F → F)
    (n s : ℕ) (hn : SCALAR_FIELD_MODULUS ≤ n) :
    computeCommitment H2 n s = computeCommitment H2 (n % SCALAR_FIELD_MODULUS) s
      ∧ computeNullifierHash H1 n = computeNullifierHash H1 (n % SCALAR_FIELD_MODULUS)
      ∧ toFieldElement n = n % SCALAR_FIELD_MODULUS := by
  refine ⟨?_, ?_, rfl⟩
  · simp [computeCommitment, ZMod.natCast_mod]
  · simp [computeNullifierHash, ZMod.natCast_mod]

/-- Witness for `field_inputs_silently_reduced` just above the modulus. -/
theorem field_inputs_silently_reduced_witness :
    computeCommitment (fun a b => a * b) (SCALAR_FIELD_MODULUS + 1) 2
        = computeCommitment (fun a b => a * b) ((SCALAR_FIELD_MODULUS + 1) % SCALAR_FIELD_MODULUS) 2
      ∧ computeNullifierHash (fun a => a) (SCALAR_FIELD_MODULUS + 1)
          = computeNullifierHash (fun a => a) ((SCALAR_FIELD_MODULUS + 1) % SCALAR_FIELD_MODULUS)
      ∧ toFieldElement (SCALAR_FIELD_MODULUS + 1) = (SCALAR_FIELD_MODULUS + 1) % SCALAR_FIELD_MODULUS :=
  field_inputs_silently_reduced (fun a => a) (fun a b => a * b)
    (SCALAR_FIELD_MODULUS + 1) 2 (Nat.le_succ _)

/-! ### Circuit chain lemmas -/
theorem take_succ_getD (l : List F) (k : ℕ) (hk : k < l.length) :
    l.take (k + 1) = l.take k ++ [l.getD k 0] := by
  rw [List.take_succ, List.getElem?_eq_getElem hk, List.getD_eq_getElem l 0 hk]
  simp

theorem getD_map_range (f : ℕ → F) (n k : ℕ) (hk : k < n) :
    ((List.range n).map f).getD k 0 = f k := by
  rw [List.getD_eq_getElem _ 0 (by simpa using hk)]
  simp

theorem merkleChainCircuit_snoc (H2 : F → F → F) (e s : F) :
    ∀ (es ss : List F) (cur : F), es.length = ss.length →
      merkleChainCircuit H2 cur (es ++ [e]) (ss ++ [s])
        = H2 (selLeft (merkleChainCircuit H2 cur es ss) e s)
            (selRight (merkleChainCircuit H2 cur es ss) e s)
  | [], [], cur, _ => rfl
  | [], _ :: _, _, h => by simp at h
  | _ :: _, [], _, h => by simp at h
  | e1 :: es, s1 :: ss, cur, h => by
    simp only [List.cons_append, merkleChainCircuit]
    exact merkleChainCircuit_snoc H2 e s es ss _ (by simpa using h)

/-- The internal `hashes` signals of a satisfying assignment are exactly the
prefix folds of the circuit hash chain. -/
theorem hashes_eq_chain (H2 : F → F → F) (pE pI : List F) (leaf : F)
    (hashes : List F)
    (hE : pE.length = MERKLE_TREE_DEPTH) (hI : pI.length = MERKLE_TREE_DEPTH)
    (h0 : hashes.getD 0 0 = leaf)
    (hstep : ∀ i < MERKLE_TREE_DEPTH,
      hashes.getD (i + 1) 0
        = H2 (selLeft (hashes.getD i 0) (pE.getD i 0) (pI.getD i 0))
            (selRight (hashes.getD i 0) (pE.getD i 0) (pI.getD i 0))) :
    ∀ k ≤ MERKLE_TREE_DEPTH,
      hashes.getD k 0 = merkleChainCircuit H2 leaf (pE.take k) (pI.take k) := by
  intro k
  induction k with
  | zero => intro _; simpa [merkleChainCircuit] using h0
  | succ k ih =>
    intro hk
    have hk10 : k < MERKLE_TREE_DEPTH := by omega
    rw [hstep k hk10, ih (by omega),
      take_succ_getD pE k (by omega), take_succ_getD pI k (by omega),
      merkleChainCircuit_snoc H2 _ _ _ _ _ (by simp [hE, hI])]

/-- The `Withdraw(10)` constraint system is satisfied exactly when the two
equality constraints hold of the determined hash chain. -/
theorem withdrawSat_iff_chain (H1 : F → F) (H2 : F → F → F)
    (root nullifierHash recipient relayer fee nullifier secret : F)
    (pE pI : List F)
    (hE : pE.length = MERKLE_TREE_DEPTH) (hI : pI.length = MERKLE_TREE_DEPTH) :
    withdrawSat H1 H2 root nullifierHash recipient relayer fee nullifier secret pE pI
      ↔ (nullifierHash = H1 nullifier
          ∧ root = merkleChainCircuit H2 (H2 nullifier secret) pE pI) := by
  constructor
  · rintro ⟨hashes, hlen, h0, hstep, hnul, hroot, -⟩
    refine ⟨hnul, ?_⟩
    rw [hroot, hashes_eq_chain H2 pE pI _ hashes hE hI h0 hstep MERKLE_TREE_DEPTH le_rfl]
    rw [List.take_of_length_le (le_of_eq hE), List.take_of_length_le (le_of_eq hI)]
  · rintro ⟨hnul, hroot⟩
    refine ⟨(List.range (MERKLE_TREE_DEPTH + 1)).map
        (fun k => merkleChainCircuit H2 (H2 nullifier secret) (pE.take k) (pI.take k)),
      by simp, ?_, ?_, hnul, ?_,
      recipient * recipient, fee * fee, relayer * relayer, rfl, rfl, rfl⟩
    · rw [getD_map_range _ _ 0 (by omega)]
      simp [merkleChainCircuit]
    · intro i hi
      rw [getD_map_range _ _ (i + 1) (by omega), getD_map_range _ _ i (by omega),
        take_succ_getD pE i (by omega), take_succ_getD pI i (by omega),
        merkleChainCircuit_snoc H2 _ _ _ _ _ (by simp [hE, hI])]
    · rw [getD_map_range _ _ MERKLE_TREE_DEPTH (by omega),
        List.take_of_length_le (le_of_eq hE), List.take_of_length_le (le_of_eq hI)]
      exact hroot

/-- When every path index is a bit, the affine selectors of the circuit
reduce to the plain left/right swap of §4.2. -/
theorem merkleChainCircuit_eq_recombinePathF (H2 : F → F → F) :
    ∀ (pE pI : List F) (cur : F), (∀ b ∈ pI, b = 0 ∨ b = 1) →
      merkleChainCircuit H2 cur pE pI = recombinePathF H2 cur pE pI
  | [], _, _, _ => by
    simp [merkleChainCircuit, recombinePathF]
  | _ :: _, [], _, _ => by
    simp [merkleChainCircuit, recombinePathF]
  | e :: es, b :: bs, cur, hb => by
    have htail : ∀ x ∈ bs, x = 0 ∨ x = 1 := fun x hx => hb x (by simp [hx])
    rcases hb b (by simp) with h | h <;> subst h
    · have hL : selLeft cur e 0 = cur := by simp [selLeft]
      have hR : selRight cur e 0 = e := by simp [selRight]
      show merkleChainCircuit H2 (H2 (selLeft cur e 0) (selRight cur e 0)) es bs
        = recombinePathF H2 (if (0 : F) = 0 then H2 cur e else H2 e cur) es bs
      rw [hL, hR, if_pos rfl]
      exact merkleChainCircuit_eq_recombinePathF H2 es bs _ htail
    · have hL : selLeft cur e 1 = e := by simp only [selLeft]; ring
      have hR : selRight cur e 1 = cur := by simp only [selRight]; ring
      show merkleChainCircuit H2 (H2 (selLeft cur e 1) (selRight cur e 1)) es bs
        = recombinePathF H2 (if (1 : F) = 0 then H2 cur e else H2 e cur) es bs
      rw [hL, hR, if_neg one_ne_zero]
      exact merkleChainCircuit_eq_recombinePathF H2 es bs _ htail

/-- C1: with the path indices interpreted as left/right bits, the
`Withdraw(10)` constraint system is satisfied iff `nullifierHash` is the
arity-1 hash of `nullifier` and re-deriving the root from
`commitment = H2 nullifier secret` and the path via the §4.2 combination
rule equals the public `root`. -/
theorem withdraw_circuit_characterization (H1 : F → F) (H2 : F → F → F)
    (root nullifierHash recipient relayer fee nullifier secret : F)
    (pathElements pathIndices : List F)
    (hE : pathElements.length = MERKLE_TREE_DEPTH)
    (hI : pathIndices.length = MERKLE_TREE_DEPTH)
    (hbits : ∀ b ∈ pathIndices, b = 0 ∨ b = 1) :
    withdrawSat H1 H2 root nullifierHash recipient relayer fee nullifier secret
        pathElements pathIndices
      ↔ (nullifierHash = H1 nullifier
          ∧ recombinePathF H2 (H2 nullifier secret) pathElements pathIndices = root) := by
  rw [withdrawSat_iff_chain H1 H2 root nullifierHash recipient relayer fee nullifier secret
      pathElements pathIndices hE hI,
    merkleChainCircuit_eq_recombinePathF H2 pathElements pathIndices _ hbits]
  exact and_congr_right fun _ => eq_comm

/-- Witness for `withdraw_circuit_characterization` at concrete hash maps
and an all-zero assignment. -/
theorem withdraw_circuit_characterization_witness :
    withdrawSat (fun a => a + 2) (fun a b => a + b) 0 0 0 0 0 0 0
        (List.replicate 10 0) (List.replicate 10 0)
      ↔ ((0 : F) = (fun (a : F) => a + 2) 0
          ∧ recombinePathF (fun a b => a + b) ((fun (a : F) (b : F) => a + b) 0 0)
              (List.replicate 10 0) (List.replicate 10 0) = 0) :=
  withdraw_circuit_characterization (fun a => a + 2) (fun a b => a + b) 0 0 0 0 0 0 0
    (List.replicate 10 0) (List.replicate 10 0)
    (by simp [MERKLE_TREE_DEPTH]) (by simp [MERKLE_TREE_DEPTH])
    (fun b hb => Or.inl (List.eq_of_mem_replicate hb))

/-- C7: a satisfying assignment of `ProofOfInnocence(10)` (path indices
interpreted as left/right bits) carries the single commitment
`H2 nullifier secret`, which re-derives `depositRoot` via the deposit path
and `associationSetRoot` via the association path, with
`nullifierHash = H1 nullifier`; the two paths are independent. -/
theorem innocence_circuit_dual_membership (H1 : F → F) (H2 : F → F → F)
    (depositRoot associationSetRoot nullifierHash associationSetId timestamp nullifier secret : F)
    (dpE dpI apE apI : List F)
    (hdE : dpE.length = MERKLE_TREE_DEPTH) (hdI : dpI.length = MERKLE_TREE_DEPTH)
    (haE : apE.length = MERKLE_TREE_DEPTH) (haI : apI.length = MERKLE_TREE_DEPTH)
    (hdbits : ∀ b ∈ dpI, b = 0 ∨ b = 1) (habits : ∀ b ∈ apI, b = 0 ∨ b = 1)
    (hsat : innocenceSat H1 H2 depositRoot associationSetRoot nullifierHash associationSetId
      timestamp nullifier secret dpE dpI apE apI) :
    nullifierHash = H1 nullifier
      ∧ recombinePathF H2 (H2 nullifier secret) dpE dpI = depositRoot
      ∧ recombinePathF H2 (H2 nullifier secret) apE apI = associationSetRoot := by
  obtain ⟨dHashes, aHashes, hdlen, halen, hd0, ha0, hdstep, hastep, hnul, hdroot, haroot, -⟩ := hsat
  refine ⟨hnul, ?_, ?_⟩
  · rw [← merkleChainCircuit_eq_recombinePathF H2 dpE dpI _ hdbits, hdroot,
      hashes_eq_chain H2 dpE dpI _ dHashes hdE hdI hd0 hdstep MERKLE_TREE_DEPTH le_rfl,
      List.take_of_length_le (le_of_eq hdE), List.take_of_length_le (le_of_eq hdI)]
  · rw [← merkleChainCircuit_eq_recombinePathF H2 apE apI _ habits, haroot,
      hashes_eq_chain H2 apE apI _ aHashes haE haI ha0 hastep MERKLE_TREE_DEPTH le_rfl,
      List.take_of_length_le (le_of_eq haE), List.take_of_length_le (le_of_eq haI)]

theorem getD_replicate_zero (n i : ℕ) : (List.replicate n (0 : F)).getD i 0 = 0 := by
  rcases Nat.lt_or_ge i n with h | h
  · rw [List.getD_eq_getElem _ _ (by simpa using h)]
    simp
  · exact List.getD_eq_default _ _ (by simpa using h)

/-- Witness for `innocence_circuit_dual_membership`: a concrete satisfying
all-zero assignment with `H1 = H2 = 0` maps. -/
theorem innocence_circuit_dual_membership_witness :
    (0 : F) = (fun (_ : F) => (0 : F)) 0
      ∧ recombinePathF (fun _ _ => 0) ((fun (_ : F) (_ : F) => (0 : F)) 0 0)
          (List.replicate 10 0) (List.replicate 10 0) = 0
      ∧ recombinePathF (fun _ _ => 0) ((fun (_ : F) (_ : F) => (0 : F)) 0 0)
          (List.replicate 10 0) (List.replicate 10 0) = 0 :=
  innocence_circuit_dual_membership (fun _ => 0) (fun _ _ => 0) 0 0 0 0 0 0 0
    (List.replicate 10 0) (List.replicate 10 0) (List.replicate 10 0) (List.replicate 10 0)
    (by simp [MERKLE_TREE_DEPTH]) (by simp [MERKLE_TREE_DEPTH])
    (by simp [MERKLE_TREE_DEPTH]) (by simp [MERKLE_TREE_DEPTH])
    (fun b hb => Or.inl (List.eq_of_mem_replicate hb))
    (fun b hb => Or.inl (List.eq_of_mem_replicate hb))
    ⟨List.replicate 11 0, List.replicate 11 0, by simp [MERKLE_TREE_DEPTH],
      by simp [MERKLE_TREE_DEPTH], getD_replicate_zero 11 0, getD_replicate_zero 11 0,
      by intro i hi; rw [getD_replicate_zero],
      by intro i hi; rw [getD_replicate_zero],
      rfl, (getD_replicate_zero 11 MERKLE_TREE_DEPTH).symm,
      (getD_replicate_zero 11 MERKLE_TREE_DEPTH).symm, 0, 0, by ring, by ring⟩

/-! ### Byte-level lemmas -/
theorem byte_facts : ∀ b : Fin 128,
    ((b : ℕ) ||| 128 = (b : ℕ) + 128)
      ∧ (((b : ℕ) + 128).testBit 7 = true)
      ∧ ((b : ℕ).testBit 7 = false) := by decide

theorem lor128_eq_add (b : ℕ) (hb : b < 128) : b ||| 128 = b + 128 :=
  (byte_facts ⟨b, hb⟩).1

theorem testBit7_add128 (b : ℕ) (hb : b < 128) : (b + 128).testBit 7 = true :=
  (byte_facts ⟨b, hb⟩).2.1

theorem testBit7_small (b : ℕ) (hb : b < 128) : b.testBit 7 = false :=
  (byte_facts ⟨b, hb⟩).2.2

theorem leBytes32_reverse (x : ℕ) : (leBytes32 x).reverse = beBytes32 x := rfl

theorem beBytes32_getD_zero (x : ℕ) : (beBytes32 x).getD 0 0 = x >>> 248 &&& 255 := rfl

theorem beBytes32_length (x : ℕ) : (beBytes32 x).length = 32 := rfl

theorem beBytes32_byte0_lt (x : ℕ) (hx : x < 2 ^ 254) : (beBytes32 x).getD 0 0 < 64 := by
  rw [beBytes32_getD_zero]
  calc x >>> 248 &&& 255 ≤ x >>> 248 := Nat.and_le_left
    _ < 64 := by
      rw [Nat.shiftRight_eq_div_pow]
      exact Nat.div_lt_of_lt_mul (by norm_num at hx ⊢; omega)

theorem base_lt_two_pow : BASE_FIELD_MODULUS < 2 ^ 254 := by
  norm_num [BASE_FIELD_MODULUS]

theorem scalar_le_base : FIELD_SIZE ≤ BASE_FIELD_MODULUS := by
  norm_num [FIELD_SIZE, SCALAR_FIELD_MODULUS, BASE_FIELD_MODULUS]

theorem base_odd : 2 * (BASE_FIELD_MODULUS / 2) + 1 = BASE_FIELD_MODULUS := by
  norm_num [BASE_FIELD_MODULUS]

theorem scalar_odd : 2 * (FIELD_SIZE / 2) + 1 = FIELD_SIZE := by
  norm_num [FIELD_SIZE, SCALAR_FIELD_MODULUS]

theorem set_zero_getD_self (l : List ℕ) : l.set 0 (l.getD 0 0) = l := by
  cases l <;> rfl

theorem tail_set_zero (l : List ℕ) (v : ℕ) : (l.set 0 v).tail = l.tail := by
  cases l <;> rfl

theorem getD_set_zero (l : List ℕ) (v : ℕ) (h : l ≠ []) :
    (l.set 0 v).getD 0 0 = v := by
  cases l with
  | nil => exact absurd rfl h
  | cons a t => rfl

theorem beBytes32_ne_nil (x : ℕ) : beBytes32 x ≠ [] := by
  intro h
  have := congrArg List.length h
  rw [beBytes32_length] at this
  simp at this

/-- C5: for a G1 point with both coordinates reduced in the base field, the
compressed form is the 32-byte big-endian encoding of `x` whose first byte
gains `128` exactly when `y > p/2`; the top bit is set iff `y > p/2` and
the underlying big-endian byte has it clear. -/
theorem g1_compression_format (x y : ℕ)
    (hx : x < BASE_FIELD_MODULUS) (hy : y < BASE_FIELD_MODULUS) :
    compressG1Point x y
        = (beBytes32 x).set 0
            ((beBytes32 x).getD 0 0 + (if BASE_FIELD_MODULUS / 2 < y then 128 else 0))
      ∧ (((compressG1Point x y).getD 0 0).testBit 7 = true ↔ BASE_FIELD_MODULUS / 2 < y)
      ∧ ((beBytes32 x).getD 0 0).testBit 7 = false := by
  have hb0 : (beBytes32 x).getD 0 0 < 64 := beBytes32_byte0_lt x (lt_trans hx base_lt_two_pow)
  have hb0' : (beBytes32 x).getD 0 0 < 128 := by omega
  by_cases hsign : BASE_FIELD_MODULUS / 2 < y
  · refine ⟨?_, ?_, testBit7_small _ hb0'⟩
    · simp only [compressG1Point, if_pos hsign, lor128_eq_add _ hb0']
    · rw [show compressG1Point x y
            = (beBytes32 x).set 0 ((beBytes32 x).getD 0 0 ||| 128) from by
          simp only [compressG1Point, if_pos hsign],
        getD_set_zero _ _ (beBytes32_ne_nil x), lor128_eq_add _ hb0',
        testBit7_add128 _ hb0']
      simp [hsign]
  · refine ⟨?_, ?_, testBit7_small _ hb0'⟩
    · simp only [compressG1Point, if_neg hsign, add_zero]
      exact (set_zero_getD_self _).symm
    · rw [show compressG1Point x y = beBytes32 x from by
          simp only [compressG1Point, if_neg hsign],
        testBit7_small _ hb0']
      simp [hsign]

/-- Witness for `g1_compression_format` at the point `(1, 1)`. -/
theorem g1_compression_format_witness :
    compressG1Point 1 1
        = (beBytes32 1).set 0
            ((beBytes32 1).getD 0 0 + (if BASE_FIELD_MODULUS / 2 < 1 then 128 else 0))
      ∧ (((compressG1Point 1 1).getD 0 0).testBit 7 = true ↔ BASE_FIELD_MODULUS / 2 < 1)
      ∧ ((beBytes32 1).getD 0 0).testBit 7 = false :=
  g1_compression_format 1 1 (by norm_num [BASE_FIELD_MODULUS])
    (by norm_num [BASE_FIELD_MODULUS])

/-- C4: for a G2 point with all coordinates reduced in the base field, the
64-byte compressed form is big-endian `x2` followed by big-endian `x1`,
with `128` added to the first byte exactly when the sign-determining
coordinate — `y2`, or `y1` when `y2 = 0` — exceeds `p/2`; the top bit of
the first byte is set iff that comparison holds. -/
theorem g2_compression_format (x1 x2 y1 y2 : ℕ)
    (hx1 : x1 < BASE_FIELD_MODULUS) (hx2 : x2 < BASE_FIELD_MODULUS)
    (hy1 : y1 < BASE_FIELD_MODULUS) (hy2 : y2 < BASE_FIELD_MODULUS) :
    (compressG2Point x1 x2 y1 y2).length = 64
      ∧ compressG2Point x1 x2 y1 y2
          = (beBytes32 x2 ++ beBytes32 x1).set 0
              ((beBytes32 x2).getD 0 0
                + (if BASE_FIELD_MODULUS / 2 < (if y2 ≠ 0 then y2 else y1) then 128 else 0))
      ∧ (((compressG2Point x1 x2 y1 y2).getD 0 0).testBit 7 = true
          ↔ BASE_FIELD_MODULUS / 2 < (if y2 ≠ 0 then y2 else y1)) := by
  have hb0 : (beBytes32 x2).getD 0 0 < 64 := beBytes32_byte0_lt x2 (lt_trans hx2 base_lt_two_pow)
  have hb0' : (beBytes32 x2).getD 0 0 < 128 := by omega
  have hlen32 : 0 < (beBytes32 x2).length := by rw [beBytes32_length]; omega
  have hgetD : (beBytes32 x2 ++ beBytes32 x1).getD 0 0 = (beBytes32 x2).getD 0 0 :=
    List.getD_append _ _ 0 0 hlen32
  have hne : beBytes32 x2 ++ beBytes32 x1 ≠ [] := by
    intro h
    have := congrArg List.length h
    simp [beBytes32_length] at this
  by_cases hsign : BASE_FIELD_MODULUS / 2 < (if y2 ≠ 0 then y2 else y1)
  · refine ⟨?_, ?_, ?_⟩
    · rw [show compressG2Point x1 x2 y1 y2
            = (beBytes32 x2 ++ beBytes32 x1).set 0
                ((beBytes32 x2 ++ beBytes32 x1).getD 0 0 ||| 128) from by
          simp only [compressG2Point, if_pos hsign]]
      simp [beBytes32_length]
    · simp only [compressG2Point, if_pos hsign, hgetD, lor128_eq_add _ hb0']
    · rw [show compressG2Point x1 x2 y1 y2
            = (beBytes32 x2 ++ beBytes32 x1).set 0
                ((beBytes32 x2 ++ beBytes32 x1).getD 0 0 ||| 128) from by
          simp only [compressG2Point, if_pos hsign],
        getD_set_zero _ _ hne, hgetD, lor128_eq_add _ hb0', testBit7_add128 _ hb0']
      exact iff_of_true rfl hsign
  · refine ⟨?_, ?_, ?_⟩
    · rw [show compressG2Point x1 x2 y1 y2 = beBytes32 x2 ++ beBytes32 x1 from by
          simp only [compressG2Point, if_neg hsign]]
      simp [beBytes32_length]
    · simp only [compressG2Point, if_neg hsign, add_zero, ← hgetD]
      exact (set_zero_getD_self _).symm
    · rw [show compressG2Point x1 x2 y1 y2 = beBytes32 x2 ++ beBytes32 x1 from by
          simp only [compressG2Point, if_neg hsign],
        hgetD, testBit7_small _ hb0']
      exact iff_of_false (by simp) hsign

/-- Witness for `g2_compression_format` at the point `((1, 2), (3, 4))`. -/
theorem g2_compression_format_witness :
    (compressG2Point 1 2 3 4).length = 64
      ∧ compressG2Point 1 2 3 4
          = (beBytes32 2 ++ beBytes32 1).set 0
              ((beBytes32 2).getD 0 0
                + (if BASE_FIELD_MODULUS / 2 < (if (4 : ℕ) ≠ 0 then (4 : ℕ) else 3) then 128 else 0))
      ∧ (((compressG2Point 1 2 3 4).getD 0 0).testBit 7 = true
          ↔ BASE_FIELD_MODULUS / 2 < (if (4 : ℕ) ≠ 0 then (4 : ℕ) else 3)) :=
  g2_compression_format 1 2 3 4 (by norm_num [BASE_FIELD_MODULUS])
    (by norm_num [BASE_FIELD_MODULUS]) (by norm_num [BASE_FIELD_MODULUS])
    (by norm_num [BASE_FIELD_MODULUS])

/-! ### The two compression implementations compared (C6) -/
theorem parseProof_a (ax ay bx1 bx2 by1 by2 cx cy : ℕ) :
    (parseProofToCompressed ax ay bx1 bx2 by1 by2 cx cy).1
      = (beBytes32 ax).set 0
          (addBitmaskToByte ((beBytes32 ax).getD 0 0)
            (if yElementIsPositiveG1 ay then false else true)) := by
  simp only [parseProofToCompressed, leBytes32_reverse]

theorem parseProof_b (ax ay bx1 bx2 by1 by2 cx cy : ℕ) :
    (parseProofToCompressed ax ay bx1 bx2 by1 by2 cx cy).2.1
      = (beBytes32 bx2 ++ beBytes32 bx1).set 0
          (addBitmaskToByte ((beBytes32 bx2 ++ beBytes32 bx1).getD 0 0)
            (yElementIsPositiveG2 by2 by1)) := by
  simp only [parseProofToCompressed, List.reverse_append, leBytes32_reverse]

theorem parseProof_c (ax ay bx1 bx2 by1 by2 cx cy : ℕ) :
    (parseProofToCompressed ax ay bx1 bx2 by1 by2 cx cy).2.2
      = (beBytes32 cx).set 0
          (addBitmaskToByte ((beBytes32 cx).getD 0 0) (yElementIsPositiveG1 cy)) := by
  simp only [parseProofToCompressed, leBytes32_reverse]

theorem addBitmask_true (byte : ℕ) : addBitmaskToByte byte true = byte := rfl

theorem addBitmask_false (byte : ℕ) : addBitmaskToByte byte false = byte ||| 128 := rfl

theorem posG1_of_double_le (y : ℕ) (h : 2 * y ≤ FIELD_SIZE) :
    yElementIsPositiveG1 y = true :=
  decide_eq_true (by omega)

theorem posG1_of_gt_base_half (y : ℕ) (h : BASE_FIELD_MODULUS / 2 < y) :
    yElementIsPositiveG1 y = false := by
  have h1 := base_odd
  have h2 := scalar_le_base
  exact decide_eq_false (by omega)

theorem not_base_half_lt_of_double_le (y : ℕ) (h : 2 * y ≤ FIELD_SIZE) :
    ¬ BASE_FIELD_MODULUS / 2 < y := by
  have h1 := base_odd
  have h2 := scalar_odd
  have h3 := scalar_le_base
  omega

theorem posG2_of_lt_half (y1 y2 : ℕ) (h : y1 < FIELD_SIZE / 2) :
    yElementIsPositiveG2 y1 y2 = true := by
  simp [yElementIsPositiveG2, if_pos h]

theorem posG2_of_gt_base_half (y1 y2 : ℕ) (h : BASE_FIELD_MODULUS / 2 < y1) :
    yElementIsPositiveG2 y1 y2 = false := by
  have h1 := base_odd
  have h2 := scalar_odd
  have h3 := scalar_le_base
  have hn1 : ¬ y1 < FIELD_SIZE / 2 := by omega
  have hn2 : FIELD_SIZE / 2 < y1 := by omega
  simp [yElementIsPositiveG2, hn1, hn2]

/-- C6 counterexample: at the concrete proof with every coordinate `1`
(all reduced in the base field), the two implementations disagree on the
`a` component — `parseProofToCompressed` negates the `pi_a` sign bit
(a deliberate Solana-verifier convention in `proof-helpers.ts`). -/
theorem proof_codec_not_identical_counterexample :
    (parseProofToCompressed 1 1 1 1 1 1 1 1).1
      ≠ (proofToSolanaFormat 1 1 1 1 1 1 1 1).1 := by
  decide

/-- C6 amended: away from the midpoint gap between the two field moduli the
implementations agree on `b` and `c` byte-for-byte, while the `a`
components agree on every byte except the first, where
`parseProofToCompressed` adds the (negated) sign bit `128`:
specifically when `2 * ay ≤ FIELD_SIZE` (so `utils.ts` leaves the `a` sign
bit clear), when the imaginary coordinate `by2` is nonzero and below
`FIELD_SIZE / 2` or above `BASE_FIELD_MODULUS / 2`, and when
`2 * cy ≤ FIELD_SIZE` or `cy > BASE_FIELD_MODULUS / 2`. -/
theorem proof_codec_agreement_amended (ax ay bx1 bx2 by1 by2 cx cy : ℕ)
    (hax : ax < BASE_FIELD_MODULUS) (hbx1 : bx1 < BASE_FIELD_MODULUS)
    (hbx2 : bx2 < BASE_FIELD_MODULUS) (hcx : cx < BASE_FIELD_MODULUS)
    (hya : 2 * ay ≤ FIELD_SIZE)
    (hyb : (by2 ≠ 0 ∧ by2 < FIELD_SIZE / 2) ∨ BASE_FIELD_MODULUS / 2 < by2)
    (hyc : 2 * cy ≤ FIELD_SIZE ∨ BASE_FIELD_MODULUS / 2 < cy) :
    (parseProofToCompressed ax ay bx1 bx2 by1 by2 cx cy).2.2
        = (proofToSolanaFormat ax ay bx1 bx2 by1 by2 cx cy).2.2
      ∧ (parseProofToCompressed ax ay bx1 bx2 by1 by2 cx cy).2.1
          = (proofToSolanaFormat ax ay bx1 bx2 by1 by2 cx cy).2.1
      ∧ ((parseProofToCompressed ax ay bx1 bx2 by1 by2 cx cy).1).tail
          = ((proofToSolanaFormat ax ay bx1 bx2 by1 by2 cx cy).1).tail
      ∧ ((parseProofToCompressed ax ay bx1 bx2 by1 by2 cx cy).1).getD 0 0
          = ((proofToSolanaFormat ax ay bx1 bx2 by1 by2 cx cy).1).getD 0 0 + 128 := by
  have hba : (beBytes32 ax).getD 0 0 < 128 := by
    have := beBytes32_byte0_lt ax (lt_trans hax base_lt_two_pow); omega
  have hbc : (beBytes32 cx).getD 0 0 < 128 := by
    have := beBytes32_byte0_lt cx (lt_trans hcx base_lt_two_pow); omega
  have hbb : (beBytes32 bx2).getD 0 0 < 128 := by
    have := beBytes32_byte0_lt bx2 (lt_trans hbx2 base_lt_two_pow); omega
  have hgetDb : (beBytes32 bx2 ++ beBytes32 bx1).getD 0 0 = (beBytes32 bx2).getD 0 0 :=
    List.getD_append _ _ 0 0 (by rw [beBytes32_length]; omega)
  have habit : (if yElementIsPositiveG1 ay then false else true) = false := by
    rw [posG1_of_double_le ay hya]
    simp
  have hanot : ¬ BASE_FIELD_MODULUS / 2 < ay := not_base_half_lt_of_double_le ay hya
  refine ⟨?_, ?_, ?_, ?_⟩
  · rw [parseProof_c]
    rcases hyc with h | h
    · rw [posG1_of_double_le cy h, addBitmask_true, set_zero_getD_self]
      simp only [proofToSolanaFormat, compressG1Point,
        if_neg (not_base_half_lt_of_double_le cy h)]
    · rw [posG1_of_gt_base_half cy h, addBitmask_false]
      simp only [proofToSolanaFormat, compressG1Point, if_pos h]
  · rw [parseProof_b]
    rcases hyb with ⟨hne0, hlt⟩ | h
    · rw [posG2_of_lt_half by2 by1 hlt, addBitmask_true, set_zero_getD_self]
      have hnot : ¬ BASE_FIELD_MODULUS / 2 < (if by2 ≠ 0 then by2 else by1) := by
        rw [if_pos hne0]
        have h1 := base_odd
        have h2 := scalar_odd
        have h3 := scalar_le_base
        omega
      simp only [proofToSolanaFormat, compressG2Point, if_neg hnot]
    · have hne0 : by2 ≠ 0 := by
        have h1 := base_odd
        omega
      have hsign : BASE_FIELD_MODULUS / 2 < (if by2 ≠ 0 then by2 else by1) := by
        rw [if_pos hne0]
        exact h
      rw [posG2_of_gt_base_half by2 by1 h, addBitmask_false]
      simp only [proofToSolanaFormat, compressG2Point, if_pos hsign]
  · rw [parseProof_a, habit, addBitmask_false]
    simp only [proofToSolanaFormat, compressG1Point, if_neg hanot]
    exact tail_set_zero _ _
  · rw [parseProof_a, habit, addBitmask_false,
      getD_set_zero _ _ (beBytes32_ne_nil ax), lor128_eq_add _ hba]
    simp only [proofToSolanaFormat, compressG1Point, if_neg hanot]

/-- Witness for `proof_codec_agreement_amended` at the all-ones proof. -/
theorem proof_codec_agreement_amended_witness :
    (parseProofToCompressed 1 1 1 1 1 1 1 1).2.2
        = (proofToSolanaFormat 1 1 1 1 1 1 1 1).2.2
      ∧ (parseProofToCompressed 1 1 1 1 1 1 1 1).2.1
          = (proofToSolanaFormat 1 1 1 1 1 1 1 1).2.1
      ∧ ((parseProofToCompressed 1 1 1 1 1 1 1 1).1).tail
          = ((proofToSolanaFormat 1 1 1 1 1 1 1 1).1).tail
      ∧ ((parseProofToCompressed 1 1 1 1 1 1 1 1).1).getD 0 0
          = ((proofToSolanaFormat 1 1 1 1 1 1 1 1).1).getD 0 0 + 128 :=
  proof_codec_agreement_amended 1 1 1 1 1 1 1 1
    (by norm_num [BASE_FIELD_MODULUS]) (by norm_num [BASE_FIELD_MODULUS])
    (by norm_num [BASE_FIELD_MODULUS]) (by norm_num [BASE_FIELD_MODULUS])
    (by norm_num [FIELD_SIZE, SCALAR_FIELD_MODULUS])
    (Or.inl ⟨one_ne_zero, by norm_num [FIELD_SIZE, SCALAR_FIELD_MODULUS]⟩)
    (Or.inl (by norm_num [FIELD_SIZE, SCALAR_FIELD_MODULUS]))

/-- C3 failing trace: two submissions carrying the same `nullifierHash`
arrive before either job completes.  Both pass the duplicate check (the
hash is registered only at completion, and `processJob` never re-checks),
so both withdrawals complete — two registrations of one hash succeed,
contradicting the at-most-once registration contract. -/
theorem relayer_double_spend_trace :
    (runRelayer initialRelayerState
        [RelayerStep.submit 77 1, RelayerStep.submit 77 2,
         RelayerStep.process 1 true, RelayerStep.process 2 true]).jobs
      = [⟨1, 77, JobStatus.completed⟩, ⟨2, 77, JobStatus.completed⟩] := by
  decide

/-- C10: with the builtin satisfying its round-trip property on the note,
`parseDepositNote` inverts `serializeDepositNote` whenever the three secret
fields are non-empty strings; it never throws (it is total, returning an
`Option`), returning `none` on any string the builtin cannot parse and on
any parsed value lacking one of the three fields. -/
theorem depositNote_roundtrip_and_null
    (jsonParse : String → Option JsValue) (stringify : JsValue → String)
    (note : DepositNote)
    (hRT : jsonParse (stringify (noteToJs note)) = some (noteToJs note))
    (hn : note.nullifier ≠ "") (hs : note.secret ≠ "") (hc : note.commitment ≠ "") :
    parseDepositNote jsonParse (serializeDepositNote stringify note) = some (noteToJs note)
      ∧ (∀ s, jsonParse s = none → parseDepositNote jsonParse s = none)
      ∧ (∀ s v, jsonParse s = some v →
          (jsField v "nullifier" = none ∨ jsField v "secret" = none
            ∨ jsField v "commitment" = none) →
          parseDepositNote jsonParse s = none) := by
  refine ⟨?_, ?_, ?_⟩
  · rw [parseDepositNote, serializeDepositNote, hRT]
    have h1 : fieldTruthy (noteToJs note) "nullifier" = true := by
      simp [fieldTruthy, jsField, noteToJs, List.lookup, jsTruthy, hn]
    have h2 : fieldTruthy (noteToJs note) "secret" = true := by
      simp [fieldTruthy, jsField, noteToJs, List.lookup, jsTruthy, hs]
    have h3 : fieldTruthy (noteToJs note) "commitment" = true := by
      simp [fieldTruthy, jsField, noteToJs, List.lookup, jsTruthy, hc]
    simp [h1, h2, h3]
  · intro s hnone
    rw [parseDepositNote, hnone]
  · intro s v hsome hmiss
    rw [parseDepositNote, hsome]
    have : fieldTruthy v "nullifier" = false ∨ fieldTruthy v "secret" = false
        ∨ fieldTruthy v "commitment" = false := by
      rcases hmiss with h | h | h
      · exact Or.inl (by rw [fieldTruthy, h])
      · exact Or.inr (Or.inl (by rw [fieldTruthy, h]))
      · exact Or.inr (Or.inr (by rw [fieldTruthy, h]))
    rcases this with h | h | h <;> simp [h]

/-- Witness for `depositNote_roundtrip_and_null` with a one-string builtin
model. -/
theorem depositNote_roundtrip_and_null_witness :
    parseDepositNote
        (fun s => if s = "N" then some (noteToJs ⟨"1", "2", "3", "4", 5, 6⟩) else none)
        (serializeDepositNote (fun _ => "N") ⟨"1", "2", "3", "4", 5, 6⟩)
      = some (noteToJs ⟨"1", "2", "3", "4", 5, 6⟩)
      ∧ (∀ s, (fun s => if s = "N" then some (noteToJs ⟨"1", "2", "3", "4", 5, 6⟩) else none) s = none →
          parseDepositNote
            (fun s => if s = "N" then some (noteToJs ⟨"1", "2", "3", "4", 5, 6⟩) else none) s = none)
      ∧ (∀ s v,
          (fun s => if s = "N" then some (noteToJs ⟨"1", "2", "3", "4", 5, 6⟩) else none) s = some v →
          (jsField v "nullifier" = none ∨ jsField v "secret" = none
            ∨ jsField v "commitment" = none) →
          parseDepositNote
            (fun s => if s = "N" then some (noteToJs ⟨"1", "2", "3", "4", 5, 6⟩) else none) s = none) :=
  depositNote_roundtrip_and_null
    (fun s => if s = "N" then some (noteToJs ⟨"1", "2", "3", "4", 5, 6⟩) else none)
    (fun _ => "N") ⟨"1", "2", "3", "4", 5, 6⟩ (by simp) (by simp) (by simp) (by simp)
